import Mathlib

/-!
# CampusFuel feedback-learning core: formal model and verification

This file embeds the feedback-driven protocol-weight learning and ranking
engine of the CampusFuel repository (the `user_state.py` component described
in the repository documentation) as executable Lean definitions over `ℚ`,
and proves the documented properties about them.

Association lists (`List (String × ℚ)`) model the mappings, preserving
insertion order, which the design fixes as the iteration order.
-/

namespace CampusFuel

/-! ## Signal extraction -/

/-- Modelled from the spec: characters that form a token during extraction.
Letters and digits plus the sign markers `+` and `-`; everything else
(whitespace, punctuation, colons, commas) separates tokens. -/
def isWordChar (c : Char) : Bool :=
  c.isAlpha || c.isDigit || c = '+' || c = '-'

/-- Modelled from the spec: matching is case-insensitive, so tokens are
lowercased (ASCII) as they are read. -/
def lowerChar (c : Char) : Char :=
  if c.isUpper then Char.ofNat (c.toNat + 32) else c

/-- Accumulating tokenizer over the character list of the input text. -/
def tokenizeAux : List Char → List Char → List String
  | [], acc => if acc.isEmpty then [] else [acc.reverse.asString]
  | c :: cs, acc =>
    if isWordChar c then tokenizeAux cs (lowerChar c :: acc)
    else if acc.isEmpty then tokenizeAux cs []
    else acc.reverse.asString :: tokenizeAux cs []

/-- Modelled from the spec: split the feedback text into lowercased word
tokens, tolerating surrounding punctuation. -/
def tokenize (s : String) : List String :=
  tokenizeAux s.data []

/-- Modelled from the spec: the known signal nouns of the extraction
vocabulary (the signal identifiers used by the recognition rules). -/
def signalNouns : List String :=
  ["energy", "focus", "sleep", "stress", "mood", "anxiety", "bloat"]

/-- Value of a decimal digit character, if it is one. -/
def digitVal (c : Char) : Option ℕ :=
  if c.isDigit then some (c.toNat - 48) else none

/-- Fold a digit list into a natural number; `none` on a non-digit. -/
def digitsToNatAux : Option ℕ → List Char → Option ℕ
  | acc, [] => acc
  | some a, c :: cs =>
    match digitVal c with
    | some d => digitsToNatAux (some (10 * a + d)) cs
    | none => none
  | none, _ :: _ => none

/-- Parse a non-empty digit string as a natural number. -/
def digitsToNat (cs : List Char) : Option ℕ :=
  if cs.isEmpty then none else digitsToNatAux (some 0) cs

/-- Modelled from the spec: a token written as an explicitly signed number
(`+2`, `-1`) read as a literal strength with full precision. -/
def parseSigned (t : String) : Option ℚ :=
  match t.data with
  | '+' :: ds => (digitsToNat ds).map (fun n => (n : ℚ))
  | '-' :: ds => (digitsToNat ds).map (fun n => -(n : ℚ))
  | _ => none

/-- Modelled from the spec, rule 1 (explicit numeric): a signal name token
followed by a signed-number token is parsed as a literal strength. -/
def ruleExplicit : List String → List (String × ℚ)
  | [] => []
  | [_] => []
  | a :: b :: rest2 =>
    if signalNouns.contains a then
      match parseSigned b with
      | some v => (a, v) :: ruleExplicit rest2
      | none => ruleExplicit (b :: rest2)
    else ruleExplicit (b :: rest2)

/-- Modelled from the spec: the fixed vocabulary of improvement phrases. -/
def improveWords : List String :=
  ["improved", "improving", "improves", "better"]

/-- Modelled from the spec: the fixed vocabulary of decline phrases. -/
def worsenWords : List String :=
  ["worse", "worsened", "worsening", "declining"]

/-- A vocabulary word occurs within the next two tokens (the "near a known
signal noun" window of the phrasing rules). -/
def withinNextTwo (vocab : List String) : List String → Bool
  | [] => false
  | [a] => vocab.contains a
  | a :: b :: _ => vocab.contains a || vocab.contains b

/-- Modelled from the spec, rules 2 and 3 (improved and worsened phrasing):
a vocabulary verb near a known signal noun yields the given strength. -/
def ruleNear (vocab : List String) (v : ℚ) : List String → List (String × ℚ)
  | [] => []
  | a :: rest =>
    if signalNouns.contains a && withinNextTwo vocab rest then
      (a, v) :: ruleNear vocab v rest
    else ruleNear vocab v rest

/-- Modelled from the spec: positive adjectives and the signal each one is
associated with. -/
def posAdjMap : List (String × String) :=
  [("energetic", "energy"), ("focused", "focus")]

/-- Modelled from the spec, rule 4 (positive adjective): a comparative
positive adjective (for example "more energetic") yields strength 1. -/
def rulePosAdj : List String → List (String × ℚ)
  | [] => []
  | [_] => []
  | a :: b :: rest2 =>
    if a = "more" then
      match posAdjMap.lookup b with
      | some sig => (sig, 1) :: rulePosAdj (b :: rest2)
      | none => rulePosAdj (b :: rest2)
    else rulePosAdj (b :: rest2)

/-- Modelled from the spec: negative-state adjectives and the signal each
one describes (being tired is the low state of the energy signal). -/
def negAdjMap : List (String × String) :=
  [("tired", "energy"), ("anxious", "anxiety"),
   ("bloated", "bloat"), ("stressed", "stress")]

/-- Modelled from the spec, rule 5 (negation): "less" before a
negative-state adjective flips polarity to a positive strength for the
underlying signal, while "more" before one keeps the negative strength. -/
def ruleNegAdj : List String → List (String × ℚ)
  | [] => []
  | [_] => []
  | a :: b :: rest2 =>
    (if a = "less" then
      match negAdjMap.lookup b with
      | some sig => [(sig, (1 : ℚ))]
      | none => []
    else if a = "more" then
      match negAdjMap.lookup b with
      | some sig => [(sig, (-1 : ℚ))]
      | none => []
    else []) ++ ruleNegAdj (b :: rest2)

/-- Modelled from the spec, rule 6 (standalone adjective): an unqualified
negative-state adjective (not preceded by a comparative) maps to strength
-1 for its associated signal.  The first argument carries the previous
token. -/
def ruleStandalone (prev : Option String) : List String → List (String × ℚ)
  | [] => []
  | a :: rest =>
    (match negAdjMap.lookup a with
     | some sig =>
       if prev = some "more" || prev = some "less" then []
       else [(sig, (-1 : ℚ))]
     | none => []) ++ ruleStandalone (some a) rest

/-- Insert one extracted signal into the accumulated mapping with
last-write-wins merge semantics. -/
def upsert (m : List (String × ℚ)) (kv : String × ℚ) : List (String × ℚ) :=
  if m.any (fun e => e.1 = kv.1) then
    m.map (fun e => if e.1 = kv.1 then kv else e)
  else m ++ [kv]

/-- Merge the outputs of the recognition rules, evaluated in their fixed
priority order, with last-write-wins semantics on a repeated signal. -/
def mergeSignals (ms : List (List (String × ℚ))) : List (String × ℚ) :=
  ms.flatten.foldl upsert []

/-- Modelled from the spec (`parse_feedback_from_text`, the Signal
Extractor): parse a free-text feedback string into a mapping from signal
name to signed strength by running the six recognition rules in order and
merging their outputs. -/
def extract (s : String) : List (String × ℚ) :=
  let toks := tokenize s
  mergeSignals
    [ruleExplicit toks,
     ruleNear improveWords 1 toks,
     ruleNear worsenWords (-1) toks,
     rulePosAdj toks,
     ruleNegAdj toks,
     ruleStandalone none toks]

/-! ## Protocol catalog, signal router and weight updater -/

/-- Modelled from the spec (Layer 1, `PROTOCOL_WEIGHTS`): baseline
importance weights of the protocol catalog.  The documentation lists these
entries explicitly and elides the remaining protocols; the elided entries
play no role in the verified properties. -/
def PROTOCOL_WEIGHTS : List (String × ℚ) :=
  [("sleep_protocol", 9/10),
   ("stress_protocol", 85/100),
   ("energy_protocol", 8/10),
   ("mood_protocol", 75/100),
   ("cognitive_protocol", 72/100),
   ("b_complex_protocol", 65/100),
   ("electrolyte_protocol", 55/100)]

/-- Modelled from the spec (Layer 2, `FEEDBACK_PROTOCOL_MAP`): the static
Signal-to-Protocol Map from signal name to the ordered list of protocol
identifiers it influences.  The documentation lists these entries
explicitly and elides the remaining signals. -/
def FEEDBACK_PROTOCOL_MAP : List (String × List String) :=
  [("energy", ["energy_protocol", "b_complex_protocol", "electrolyte_protocol"]),
   ("focus", ["cognitive_protocol", "omega_protocol", "blood_sugar_protocol"]),
   ("sleep", ["sleep_protocol"]),
   ("stress", ["stress_protocol", "gut_protocol", "anti_inflammatory_protocol"])]

/-- Protocols affected by a signal name; a name with no entry in the
Signal-to-Protocol Map affects no protocol (silently ignored). -/
def targetsOf (sig : String) : List String :=
  (FEEDBACK_PROTOCOL_MAP.lookup sig).getD []

/-- Modelled from the spec: `clip(w, min=0.10, max=1.00)` — clamp a weight
into the closed interval [0.10, 1.00]. -/
def clip (x : ℚ) : ℚ :=
  if x < 1/10 then 1/10 else if 1 < x then 1 else x

/-- Modelled from the spec (Learning Dynamics): the boost applied per unit
signal.  A positive strength gives the conservative step
`learningRate * 0.5 * strength`; a negative strength gives the aggressive
step `learningRate * |strength|`; zero strength gives no boost. -/
def boost (lr strength : ℚ) : ℚ :=
  if 0 < strength then lr * (1/2) * strength
  else if strength < 0 then lr * |strength|
  else 0

/-- One step of the Weight Update Algorithm: apply a single
(signal, strength) pair to the weight map.  Every protocol affected by the
signal moves by the boost and is clamped; strength zero is a no-op. -/
def updateSignal (lr : ℚ) (w : List (String × ℚ)) (sv : String × ℚ) :
    List (String × ℚ) :=
  if sv.2 = 0 then w
  else
    w.map (fun e =>
      if (targetsOf sv.1).contains e.1 then (e.1, clip (e.2 + boost lr sv.2))
      else e)

/-- Modelled from the spec (`update_weights_from_feedback`, the Weight
Updater): process the extracted signals in iteration order, applying each
boost cumulatively, and return the updated weight map.  Persistence is the
Weight Store collaborator and is outside this model. -/
def update (lr : ℚ) (signals : List (String × ℚ)) (w : List (String × ℚ)) :
    List (String × ℚ) :=
  signals.foldl (updateSignal lr) w

/-! ## Protocol ranker -/

/-- Modelled from the spec (Protocol Re-ranking): the fixed 70/30 blend of
baseline and learned weight, the learned weight falling back to the
baseline when the learned map has no entry for the protocol. -/
def blendedWeight (baseline : String → ℚ) (learned : List (String × ℚ))
    (p : String) : ℚ :=
  7/10 * baseline p + 3/10 * ((learned.lookup p).getD (baseline p))

/-- Modelled from the spec: the priority score of one active protocol,
`severity * blendedWeight * goalAlignment`. -/
def scoreOf (baseline goalAlignment : String → ℚ)
    (learned : List (String × ℚ)) (e : String × ℚ) : String × ℚ :=
  (e.1, e.2 * blendedWeight baseline learned e.1 * goalAlignment e.1)

/-- Ordering key of the ranked output: strictly greater score first, ties
broken by catalog position (the position in the active-protocol list). -/
def rankKey (a b : ℕ × String × ℚ) : Prop :=
  b.2.2 < a.2.2 ∨ (a.2.2 = b.2.2 ∧ a.1 ≤ b.1)

instance rankKeyDecidable : DecidableRel rankKey := fun a b => by
  unfold rankKey; infer_instance

/-- The scored active protocols, in catalog order, each annotated with its
catalog position.  Protocols with severity 0 are excluded before scoring. -/
def scoredAnnot (baseline goalAlignment : String → ℚ)
    (learned : List (String × ℚ)) (active : List (String × ℚ)) :
    List (ℕ × String × ℚ) :=
  ((active.filter (fun e => e.2 ≠ 0)).map
    (scoreOf baseline goalAlignment learned)).enum

/-- The ranked annotated list: scored protocols sorted descending by score
with ties broken by catalog position. -/
def rankAnnot (baseline goalAlignment : String → ℚ)
    (learned : List (String × ℚ)) (active : List (String × ℚ)) :
    List (ℕ × String × ℚ) :=
  (scoredAnnot baseline goalAlignment learned active).insertionSort rankKey

/-- Modelled from the spec (`prioritize_protocols`, the Protocol Ranker):
score every active protocol with nonzero severity and return the
(protocol, score) pairs sorted descending by score, ties broken by catalog
order. -/
def rank (baseline goalAlignment : String → ℚ)
    (learned : List (String × ℚ)) (active : List (String × ℚ)) :
    List (String × ℚ) :=
  (rankAnnot baseline goalAlignment learned active).map Prod.snd

/-- Index of the first occurrence of an element in a list (the list length
when absent). -/
def idxOf {α} [DecidableEq α] (a : α) : List α → ℕ
  | [] => 0
  | x :: t => if x = a then 0 else idxOf a t + 1

/-- Position of a protocol identifier in a ranked output (the index of its
first occurrence). -/
def posIn (l : List (String × ℚ)) (p : String) : ℕ :=
  idxOf p (l.map Prod.fst)

/-- The apostrophe character, used by one of the seed feedback texts. -/
def apos : Char := Char.ofNat 39

/-- The seed feedback text saying the user is more focused and less
tired. -/
def seedFocusTired : String :=
  "I" ++ String.singleton apos ++ "m more focused and less tired"

/-! ## Basic facts about clipping and boosts -/

lemma clip_mem_range (x : ℚ) : 1/10 ≤ clip x ∧ clip x ≤ 1 := by
  unfold clip
  split_ifs <;> constructor <;> linarith

lemma clip_le_one (x : ℚ) : clip x ≤ 1 :=
  (clip_mem_range x).2

lemma boost_nonneg (lr s : ℚ) (hlr : 0 ≤ lr) : 0 ≤ boost lr s := by
  unfold boost
  split_ifs with h1 h2
  · exact mul_nonneg (mul_nonneg hlr (by norm_num)) h1.le
  · exact mul_nonneg hlr (abs_nonneg _)
  · exact le_refl 0

lemma le_clip_add (x b : ℚ) (hx : x ≤ 1) (hb : 0 ≤ b) : x ≤ clip (x + b) := by
  unfold clip
  split_ifs <;> linarith

/-! ## Claim theorems: concrete scenarios and extraction -/

lemma extract_energy_plus_two : extract "energy: +2" = [("energy", (2:ℚ))] := by
  decide

lemma targetsOf_energy :
    targetsOf "energy"
      = ["energy_protocol", "b_complex_protocol", "electrolyte_protocol"] := by
  decide

/-- C2: with the baseline catalog (energy_protocol at 0.80), the feedback
text "energy: +2" under learning rate 0.05 yields a boost of exactly
0.05 * 0.5 * 2 = 0.05 and a new stored energy_protocol weight of exactly
0.85. -/
theorem energy_scenario_exact :
    boost (1/20) 2 = (1/20) * (1/2) * 2 ∧
    boost (1/20) 2 = 5/100 ∧
    (update (1/20) (extract "energy: +2") PROTOCOL_WEIGHTS).lookup
      "energy_protocol" = some (85/100) := by
  refine ⟨by norm_num [boost], by norm_num [boost], ?_⟩
  rw [extract_energy_plus_two]
  simp only [update, List.foldl, updateSignal, PROTOCOL_WEIGHTS]
  norm_num [targetsOf_energy, clip, boost, List.lookup]
  rfl

/-- C3: for any fixed learning rate and any positive strength s, the boost
for strength -s is exactly twice the boost for strength +s, and a
strength-0 signal leaves the weight map unchanged. -/
theorem asymmetric_learning (lr s : ℚ) (hs : 0 < s) :
    boost lr (-s) = 2 * boost lr s ∧
    ∀ (sig : String) (w : List (String × ℚ)), update lr [(sig, 0)] w = w := by
  constructor
  · unfold boost
    rw [if_neg (by linarith), if_pos (by linarith), if_pos hs, abs_neg,
      abs_of_pos hs]
    ring
  · intro sig w
    simp [update, updateSignal]

/-- Witness for C3 at lr = 0.05, s = 1. -/
theorem asymmetric_learning_witness :
    boost (1/20) (-1) = 2 * boost (1/20) 1 ∧
    update (1/20) [("energy", 0)] [("energy_protocol", 4/5)]
      = [("energy_protocol", 4/5)] :=
  ⟨(asymmetric_learning (1/20) 1 (by norm_num)).1,
   (asymmetric_learning (1/20) 1 (by norm_num)).2 "energy" _⟩

/-- C4: the extractor maps each seed input to exactly the documented signal
mapping, including the polarity flip of "less tired" to positive energy
and the three independent signals of the combined input. -/
theorem extraction_seed_table :
    extract "energy: +2" = [("energy", 2)] ∧
    extract "my sleep improved" = [("sleep", 1)] ∧
    extract "stress is worse" = [("stress", -1)] ∧
    extract "I feel more energetic today" = [("energy", 1)] ∧
    extract seedFocusTired = [("focus", 1), ("energy", 1)] ∧
    extract "feeling anxious and bloated" = [("anxiety", -1), ("bloat", -1)] ∧
    extract "energy +2, focus +1, sleep -1"
      = [("energy", 2), ("focus", 1), ("sleep", -1)] :=
  ⟨by decide, by decide, by decide, by decide, by decide, by decide, by decide⟩

/-- C9: extraction and updating are total on well-typed input: text matched
by no recognition rule extracts the empty mapping, a signal name absent
from the Signal-to-Protocol Map is silently skipped, and empty or
zero-strength signal mappings leave the weight map unchanged. -/
theorem extract_update_never_fail :
    (∀ s : String,
      ruleExplicit (tokenize s) = [] →
      ruleNear improveWords 1 (tokenize s) = [] →
      ruleNear worsenWords (-1) (tokenize s) = [] →
      rulePosAdj (tokenize s) = [] →
      ruleNegAdj (tokenize s) = [] →
      ruleStandalone none (tokenize s) = [] →
      extract s = []) ∧
    extract "hello world" = [] ∧
    (∀ (lr str : ℚ) (n : String) (w : List (String × ℚ)),
      FEEDBACK_PROTOCOL_MAP.lookup n = none → update lr [(n, str)] w = w) ∧
    (∀ (lr : ℚ) (w : List (String × ℚ)), update lr [] w = w) ∧
    (∀ (lr : ℚ) (n : String) (w : List (String × ℚ)),
      update lr [(n, 0)] w = w) := by
  refine ⟨?_, by decide, ?_, ?_, ?_⟩
  · intro s h1 h2 h3 h4 h5 h6
    simp only [extract, h1, h2, h3, h4, h5, h6]
    rfl
  · intro lr str n w h
    simp [update, updateSignal, targetsOf, h]
  · intro lr w
    rfl
  · intro lr n w
    simp [update, updateSignal]

/-- Witness for C9 at concrete inputs. -/
theorem extract_update_never_fail_witness :
    extract "zzz qqq" = [] ∧
    update (1/20) [("zzz", 3)] [("energy_protocol", 4/5)]
      = [("energy_protocol", 4/5)] ∧
    update (1/20) [] [("energy_protocol", 4/5)]
      = [("energy_protocol", 4/5)] ∧
    update (1/20) [("energy", 0)] [("energy_protocol", 4/5)]
      = [("energy_protocol", 4/5)] :=
  ⟨extract_update_never_fail.1 "zzz qqq" (by decide) (by decide) (by decide)
      (by decide) (by decide) (by decide),
   extract_update_never_fail.2.2.1 (1/20) 3 "zzz" _ (by decide),
   extract_update_never_fail.2.2.2.1 (1/20) _,
   extract_update_never_fail.2.2.2.2 (1/20) "energy" _⟩

/-! ## Clamp invariant and frame properties of the updater -/

lemma updateSignal_range (lr : ℚ) (s : String × ℚ) (w : List (String × ℚ))
    (hw : ∀ e ∈ w, 1/10 ≤ e.2 ∧ e.2 ≤ 1) :
    ∀ e ∈ updateSignal lr w s, 1/10 ≤ e.2 ∧ e.2 ≤ 1 := by
  intro e he
  unfold updateSignal at he
  split at he
  · exact hw e he
  · rcases List.mem_map.1 he with ⟨f, hf, rfl⟩
    split
    · exact clip_mem_range _
    · exact hw f hf

lemma update_range (lr : ℚ) (signals : List (String × ℚ)) :
    ∀ w : List (String × ℚ), (∀ e ∈ w, 1/10 ≤ e.2 ∧ e.2 ≤ 1) →
      ∀ e ∈ update lr signals w, 1/10 ≤ e.2 ∧ e.2 ≤ 1 := by
  induction signals with
  | nil => exact fun w hw => hw
  | cons s rest ih =>
    exact fun w hw => ih (updateSignal lr w s) (updateSignal_range lr s w hw)

/-- C1: for every learning rate, every signal sequence and every weight map
satisfying the catalog bound, every stored weight still lies in
[0.10, 1.00] after the update, and the clamping is exact: a weight of 0.98
boosted by 0.05 becomes exactly 1.00. -/
theorem clamp_invariant (lr : ℚ) (signals w : List (String × ℚ))
    (hw : ∀ e ∈ w, 1/10 ≤ e.2 ∧ e.2 ≤ 1) :
    (∀ e ∈ update lr signals w, 1/10 ≤ e.2 ∧ e.2 ≤ 1) ∧
    clip (98/100 + 5/100) = 1 :=
  ⟨update_range lr signals w hw, by norm_num [clip]⟩

/-- Witness for C1 on the baseline catalog. -/
theorem clamp_invariant_witness :
    (∀ e ∈ update (1/20) [("energy", 2)] PROTOCOL_WEIGHTS,
      1/10 ≤ e.2 ∧ e.2 ≤ 1) ∧
    clip (98/100 + 5/100) = 1 :=
  clamp_invariant (1/20) [("energy", 2)] PROTOCOL_WEIGHTS
    (by norm_num [PROTOCOL_WEIGHTS])

lemma lookup_updateSignal_of_not_target (lr : ℚ) (s : String × ℚ) (p : String)
    (hp : (targetsOf s.1).contains p = false) (w : List (String × ℚ)) :
    (updateSignal lr w s).lookup p = w.lookup p := by
  unfold updateSignal
  split
  · rfl
  · induction w with
    | nil => rfl
    | cons e t ih =>
      obtain ⟨k, v⟩ := e
      simp only [List.map_cons]
      by_cases hk : (targetsOf s.1).contains k = true
      · rw [if_pos hk]
        cases hbe : p == k with
        | false => simpa only [List.lookup_cons, hbe] using ih
        | true =>
          exfalso
          have hpk : p = k := eq_of_beq hbe
          rw [hpk, hk] at hp
          exact Bool.true_eq_false.mp hp
      · rw [if_neg hk]
        cases hbe : p == k with
        | false => simpa only [List.lookup_cons, hbe] using ih
        | true => simp only [List.lookup_cons, hbe]

lemma lookup_update_of_not_target (lr : ℚ) (signals : List (String × ℚ))
    (p : String)
    (hp : ∀ sv ∈ signals, (targetsOf sv.1).contains p = false) :
    ∀ w : List (String × ℚ), (update lr signals w).lookup p = w.lookup p := by
  induction signals with
  | nil => exact fun w => rfl
  | cons s rest ih =>
    intro w
    have h1 := lookup_updateSignal_of_not_target lr s p
      (hp s (List.mem_cons_self s rest)) w
    have h2 := ih (fun sv hsv => hp sv (List.mem_cons_of_mem s hsv))
      (updateSignal lr w s)
    exact h2.trans h1

/-- C8: a protocol that is not a target of any signal present in the input
mapping retains exactly its previous weight through the update, and an
update with an empty signal mapping returns the weight map unchanged. -/
theorem unaffected_protocol_frame (lr : ℚ) (signals w : List (String × ℚ))
    (p : String)
    (hp : ∀ sv ∈ signals, (targetsOf sv.1).contains p = false) :
    (update lr signals w).lookup p = w.lookup p ∧
    update lr [] w = w :=
  ⟨lookup_update_of_not_target lr signals p hp w, rfl⟩

/-- Witness for C8: an energy signal leaves sleep_protocol untouched. -/
theorem unaffected_protocol_frame_witness :
    (update (1/20) [("energy", 2)] PROTOCOL_WEIGHTS).lookup "sleep_protocol"
      = PROTOCOL_WEIGHTS.lookup "sleep_protocol" ∧
    update (1/20) [] PROTOCOL_WEIGHTS = PROTOCOL_WEIGHTS :=
  unaffected_protocol_frame (1/20) [("energy", 2)] PROTOCOL_WEIGHTS
    "sleep_protocol" (by decide)

/-! ## Pointwise monotonicity of the updater -/

/-- Pointwise relation between a weight map and its successor: the same
protocol at each position, with a weight that has not decreased. -/
def wLe (e f : String × ℚ) : Prop :=
  f.1 = e.1 ∧ e.2 ≤ f.2

lemma forall₂_wLe_trans : ∀ {l₁ l₂ l₃ : List (String × ℚ)},
    List.Forall₂ wLe l₁ l₂ → List.Forall₂ wLe l₂ l₃ →
      List.Forall₂ wLe l₁ l₃ := by
  intro l₁ l₂ l₃ h12
  induction h12 generalizing l₃ with
  | nil => exact fun h => h
  | cons ha _ ih =>
    intro h23
    cases h23 with
    | cons hb htb =>
      exact List.Forall₂.cons ⟨hb.1.trans ha.1, ha.2.trans hb.2⟩ (ih htb)

lemma updateSignal_le_one (lr : ℚ) (s : String × ℚ) (w : List (String × ℚ))
    (hw : ∀ e ∈ w, e.2 ≤ 1) :
    ∀ e ∈ updateSignal lr w s, e.2 ≤ 1 := by
  intro e he
  unfold updateSignal at he
  split at he
  · exact hw e he
  · rcases List.mem_map.1 he with ⟨f, hf, rfl⟩
    split
    · exact clip_le_one _
    · exact hw f hf

lemma updateSignal_pointwise (lr : ℚ) (hlr : 0 ≤ lr) (s : String × ℚ) :
    ∀ w : List (String × ℚ), (∀ e ∈ w, e.2 ≤ 1) →
      List.Forall₂ wLe w (updateSignal lr w s) := by
  intro w hw
  unfold updateSignal
  split
  · exact List.forall₂_same.2 (fun e _ => ⟨rfl, le_refl e.2⟩)
  · induction w with
    | nil => exact List.Forall₂.nil
    | cons e t ih =>
      simp only [List.map_cons, List.forall₂_cons]
      refine ⟨?_, ih (fun f hf => hw f (List.mem_cons_of_mem e hf))⟩
      split
      · exact ⟨rfl, le_clip_add e.2 _ (hw e (List.mem_cons_self e t))
          (boost_nonneg lr s.2 hlr)⟩
      · exact ⟨rfl, le_refl e.2⟩

lemma update_pointwise (lr : ℚ) (hlr : 0 ≤ lr)
    (signals : List (String × ℚ)) :
    ∀ w : List (String × ℚ), (∀ e ∈ w, e.2 ≤ 1) →
      List.Forall₂ wLe w (update lr signals w) := by
  induction signals with
  | nil => exact fun w _ => List.forall₂_same.2 (fun e _ => ⟨rfl, le_refl e.2⟩)
  | cons s rest ih =>
    intro w hw
    exact forall₂_wLe_trans (updateSignal_pointwise lr hlr s w hw)
      (ih (updateSignal lr w s) (updateSignal_le_one lr s w hw))

/-- C10: with a non-negative learning rate, an update never lowers any
stored weight: the updated map relates pointwise (same protocol, weight
greater or equal) to the map before, for any signal mapping, positive or
negative strengths alike. -/
theorem update_never_decreases (lr : ℚ) (signals w : List (String × ℚ))
    (hlr : 0 ≤ lr) (hw : ∀ e ∈ w, e.2 ≤ 1) :
    List.Forall₂ wLe w (update lr signals w) :=
  update_pointwise lr hlr signals w hw

/-- Witness for C10: a reported decline in sleep raises weights. -/
theorem update_never_decreases_witness :
    List.Forall₂ wLe PROTOCOL_WEIGHTS
      (update (1/20) [("sleep", -1)] PROTOCOL_WEIGHTS) :=
  update_never_decreases (1/20) [("sleep", -1)] PROTOCOL_WEIGHTS
    (by norm_num) (by norm_num [PROTOCOL_WEIGHTS])

/-! ## Ranking: scores, order and stability -/

theorem rankKey_total : ∀ a b : ℕ × String × ℚ, rankKey a b ∨ rankKey b a := by
  intro a b
  unfold rankKey
  rcases lt_trichotomy a.2.2 b.2.2 with h | h | h
  · exact Or.inr (Or.inl h)
  · rcases Nat.le_total a.1 b.1 with hn | hn
    · exact Or.inl (Or.inr ⟨h, hn⟩)
    · exact Or.inr (Or.inr ⟨h.symm, hn⟩)
  · exact Or.inl (Or.inl h)

theorem rankKey_trans : ∀ a b c : ℕ × String × ℚ,
    rankKey a b → rankKey b c → rankKey a c := by
  intro a b c hab hbc
  unfold rankKey at hab hbc ⊢
  rcases hab with h1 | ⟨h1, h1i⟩ <;> rcases hbc with h2 | ⟨h2, h2i⟩
  · exact Or.inl (h2.trans h1)
  · exact Or.inl (h2 ▸ h1)
  · exact Or.inl (by rw [h1]; exact h2)
  · exact Or.inr ⟨h1.trans h2, h1i.trans h2i⟩

instance rankKeyIsTotal : IsTotal (ℕ × String × ℚ) rankKey := ⟨rankKey_total⟩

instance rankKeyIsTrans : IsTrans (ℕ × String × ℚ) rankKey := ⟨rankKey_trans⟩

lemma rank_perm_scored (baseline ga : String → ℚ)
    (learned active : List (String × ℚ)) :
    (rank baseline ga learned active).Perm
      ((active.filter (fun e => e.2 ≠ 0)).map (scoreOf baseline ga learned)) := by
  unfold rank rankAnnot
  have h := (List.perm_insertionSort rankKey
    (scoredAnnot baseline ga learned active)).map Prod.snd
  rw [scoredAnnot, List.enum_map_snd] at h
  exact h

/-- C5: every protocol with nonzero severity in activeProtocols receives in
the output of rank exactly the score
severity * (0.70 * baseline + 0.30 * (learned or baseline fallback)) * goalAlignment. -/
theorem rank_score_formula (baseline ga : String → ℚ)
    (learned active : List (String × ℚ)) (p : String) (sev : ℚ)
    (hmem : (p, sev) ∈ active) (hsev : sev ≠ 0) :
    (p, sev * (7/10 * baseline p
        + 3/10 * ((learned.lookup p).getD (baseline p))) * ga p)
      ∈ rank baseline ga learned active := by
  have h1 : (p, sev) ∈ active.filter (fun e => e.2 ≠ 0) :=
    List.mem_filter.2 ⟨hmem, by simpa using hsev⟩
  have h2 := List.mem_map_of_mem (scoreOf baseline ga learned) h1
  exact (rank_perm_scored baseline ga learned active).mem_iff.2 h2

/-- Witness for C5 on a concrete two-protocol input. -/
theorem rank_score_formula_witness :
    ("sleep_protocol", (7/10) * (7/10 * (9/10)
        + 3/10 * ((List.lookup "sleep_protocol"
            [("sleep_protocol", (95/100 : ℚ))]).getD (9/10))) * 1)
      ∈ rank (fun _ => 9/10) (fun _ => 1)
          [("sleep_protocol", 95/100)]
          [("sleep_protocol", 7/10), ("energy_protocol", 8/10)] :=
  rank_score_formula (fun _ => 9/10) (fun _ => 1)
    [("sleep_protocol", 95/100)]
    [("sleep_protocol", 7/10), ("energy_protocol", 8/10)]
    "sleep_protocol" (7/10) (List.mem_cons_self _ _) (by norm_num)

/-! ## Positional lemmas for sorted lists -/

lemma idxOf_cons_self {α} [DecidableEq α] (a : α) (t : List α) :
    idxOf a (a :: t) = 0 := by
  unfold idxOf
  rw [if_pos rfl]

lemma idxOf_cons_ne {α} [DecidableEq α] {x a : α} (t : List α) (h : x ≠ a) :
    idxOf a (x :: t) = idxOf a t + 1 := by
  show (if x = a then 0 else idxOf a t + 1) = idxOf a t + 1
  rw [if_neg h]

lemma idxOf_lt_length {α} [DecidableEq α] {a : α} :
    ∀ {l : List α}, a ∈ l → idxOf a l < l.length := by
  intro l
  induction l with
  | nil => intro h; cases h
  | cons x t ih =>
    intro h
    by_cases hx : x = a
    · subst hx
      rw [idxOf_cons_self]
      exact Nat.succ_pos _
    · have ha : a ∈ t := by
        rcases List.mem_cons.1 h with h1 | h1
        · exact absurd h1.symm hx
        · exact h1
      rw [idxOf_cons_ne t hx, List.length_cons]
      exact Nat.succ_lt_succ (ih ha)

lemma get_idxOf {α} [DecidableEq α] {a : α} :
    ∀ {l : List α}, a ∈ l → ∀ (hlt : idxOf a l < l.length),
      l.get ⟨idxOf a l, hlt⟩ = a := by
  intro l
  induction l with
  | nil => intro h; cases h
  | cons x t ih =>
    intro h hlt
    by_cases hx : x = a
    · subst hx
      simp [idxOf_cons_self]
    · have ha : a ∈ t := by
        rcases List.mem_cons.1 h with h1 | h1
        · exact absurd h1.symm hx
        · exact h1
      have hre : idxOf a (x :: t) = idxOf a t + 1 := idxOf_cons_ne t hx
      have hlt2 : idxOf a t < t.length := idxOf_lt_length ha
      simp only [hre, List.get_cons_succ]
      exact ih ha hlt2

lemma sorted_rel_of_idxOf_lt {α} [DecidableEq α] {r : α → α → Prop}
    {l : List α} (hs : l.Pairwise r) {a b : α} (ha : a ∈ l) (hb : b ∈ l)
    (hlt : idxOf a l < idxOf b l) : r a b := by
  have hbl := idxOf_lt_length hb
  have hal : idxOf a l < l.length := lt_trans hlt hbl
  have h := List.pairwise_iff_get.1 hs ⟨idxOf a l, hal⟩ ⟨idxOf b l, hbl⟩ hlt
  rwa [get_idxOf ha hal, get_idxOf hb hbl] at h

lemma sorted_idxOf_lt {α} [DecidableEq α] {r : α → α → Prop}
    {l : List α} (hs : l.Pairwise r) {a b : α} (ha : a ∈ l) (hb : b ∈ l)
    (hab : a ≠ b) (hnr : ¬ r b a) : idxOf a l < idxOf b l := by
  rcases lt_trichotomy (idxOf a l) (idxOf b l) with h | h | h
  · exact h
  · exfalso
    apply hab
    have hal := idxOf_lt_length ha
    have hbl := idxOf_lt_length hb
    have h1 := get_idxOf ha hal
    have h2 := get_idxOf hb hbl
    simp only [h] at h1
    exact h1.symm.trans h2
  · exact absurd (sorted_rel_of_idxOf_lt hs hb ha h) hnr

lemma idxOf_map_of_inj {α β} [DecidableEq α] [DecidableEq β] (f : α → β) :
    ∀ (l : List α) (a : α), a ∈ l → (∀ x ∈ l, f x = f a → x = a) →
      idxOf (f a) (l.map f) = idxOf a l := by
  intro l
  induction l with
  | nil => intro a ha; cases ha
  | cons x t ih =>
    intro a ha hinj
    by_cases hxa : x = a
    · subst hxa
      rw [List.map_cons, idxOf_cons_self, idxOf_cons_self]
    · have hfx : f x ≠ f a := fun h => hxa (hinj x (List.mem_cons_self x t) h)
      have ha2 : a ∈ t := by
        rcases List.mem_cons.1 ha with h | h
        · exact absurd h.symm hxa
        · exact h
      rw [List.map_cons, idxOf_cons_ne _ hfx, idxOf_cons_ne _ hxa,
        ih a ha2 (fun y hy hfy => hinj y (List.mem_cons_of_mem x hy) hfy)]

lemma idxOf_filter_lt {α} [DecidableEq α] (pr : α → Bool) :
    ∀ (l : List α) (a b : α), a ∈ l.filter pr → b ∈ l.filter pr →
      idxOf a l < idxOf b l →
      idxOf a (l.filter pr) < idxOf b (l.filter pr) := by
  intro l
  induction l with
  | nil => intro a b ha; cases ha
  | cons x t ih =>
    intro a b ha hb hab
    have hne : a ≠ b := by
      intro h
      rw [h] at hab
      exact lt_irrefl _ hab
    by_cases hxa : x = a
    · subst hxa
      have hpx : pr x = true := (List.mem_filter.1 ha).2
      rw [List.filter_cons_of_pos hpx, idxOf_cons_self,
        idxOf_cons_ne _ hne]
      exact Nat.succ_pos _
    · by_cases hxb : x = b
      · subst hxb
        rw [idxOf_cons_self] at hab
        exact absurd hab (Nat.not_lt_zero _)
      · have ha2 : a ∈ t.filter pr := by
          rcases List.mem_filter.1 ha with ⟨hmem, hpa⟩
          rcases List.mem_cons.1 hmem with h | h
          · exact absurd h.symm hxa
          · exact List.mem_filter.2 ⟨h, hpa⟩
        have hb2 : b ∈ t.filter pr := by
          rcases List.mem_filter.1 hb with ⟨hmem, hpb⟩
          rcases List.mem_cons.1 hmem with h | h
          · exact absurd h.symm hxb
          · exact List.mem_filter.2 ⟨h, hpb⟩
        have hab2 : idxOf a t < idxOf b t := by
          rw [idxOf_cons_ne _ hxa, idxOf_cons_ne _ hxb] at hab
          exact Nat.lt_of_succ_lt_succ hab
        by_cases hpx : pr x = true
        · rw [List.filter_cons_of_pos hpx, idxOf_cons_ne _ hxa,
            idxOf_cons_ne _ hxb]
          exact Nat.succ_lt_succ (ih a b ha2 hb2 hab2)
        · rw [List.filter_cons_of_neg (by simpa using hpx)]
          exact ih a b ha2 hb2 hab2

lemma enum_map_mem_of_idxOf {α β} [DecidableEq α] (f : α → β)
    (l : List α) {a : α} (ha : a ∈ l) :
    (idxOf a l, f a) ∈ (l.map f).enum := by
  have hlt : idxOf a l < l.length := idxOf_lt_length ha
  have hlt2 : idxOf a l < (l.map f).enum.length := by
    rw [List.enum_length, List.length_map]
    exact hlt
  refine List.mem_iff_get.2 ⟨⟨idxOf a l, hlt2⟩, ?_⟩
  have hget := get_idxOf ha hlt
  rw [List.get_eq_getElem] at hget
  rw [List.get_eq_getElem, List.getElem_enum, List.getElem_map, hget]

/-! ## Identification of positions in the ranked output -/

lemma scored_map_fst (baseline ga : String → ℚ) (learned F : List (String × ℚ)) :
    (F.map (scoreOf baseline ga learned)).map Prod.fst = F.map Prod.fst := by
  rw [List.map_map]
  exact List.map_congr_left (fun e _ => rfl)

lemma rankAnnot_ids_eq (baseline ga : String → ℚ)
    (learned active : List (String × ℚ)) :
    ((scoredAnnot baseline ga learned active).map (fun e => e.2.1))
      = (active.filter (fun e => e.2 ≠ 0)).map Prod.fst := by
  unfold scoredAnnot
  have h1 : (fun e : ℕ × String × ℚ => e.2.1) = Prod.fst ∘ Prod.snd := rfl
  rw [h1, ← List.map_map, List.enum_map_snd, scored_map_fst]

lemma rankAnnot_ids_nodup (baseline ga : String → ℚ)
    (learned active : List (String × ℚ))
    (hnodup : (active.map Prod.fst).Nodup) :
    ((rankAnnot baseline ga learned active).map (fun e => e.2.1)).Nodup := by
  unfold rankAnnot
  have hperm := (List.perm_insertionSort rankKey
    (scoredAnnot baseline ga learned active)).map (fun e => e.2.1)
  rw [List.Perm.nodup_iff hperm, rankAnnot_ids_eq]
  exact List.Nodup.sublist ((List.filter_sublist active).map Prod.fst) hnodup

lemma mem_rankAnnot_of_mem_filter (baseline ga : String → ℚ)
    (learned active : List (String × ℚ)) {e : String × ℚ}
    (he : e ∈ active.filter (fun x => x.2 ≠ 0)) :
    (idxOf e (active.filter (fun x => x.2 ≠ 0)),
      scoreOf baseline ga learned e)
      ∈ rankAnnot baseline ga learned active := by
  have h1 := enum_map_mem_of_idxOf (scoreOf baseline ga learned)
    (active.filter (fun x => x.2 ≠ 0)) he
  exact (List.perm_insertionSort rankKey _).mem_iff.2 h1

lemma posIn_rank_eq (baseline ga : String → ℚ)
    (learned active : List (String × ℚ))
    (hnodup : (active.map Prod.fst).Nodup) {p : String} {sev : ℚ}
    (he : (p, sev) ∈ active.filter (fun x => x.2 ≠ 0)) :
    posIn (rank baseline ga learned active) p
      = idxOf (idxOf (p, sev) (active.filter (fun x => x.2 ≠ 0)),
            scoreOf baseline ga learned (p, sev))
          (rankAnnot baseline ga learned active) := by
  have hmem := mem_rankAnnot_of_mem_filter baseline ga learned active he
  have hids := rankAnnot_ids_nodup baseline ga learned active hnodup
  have hinj := List.inj_on_of_nodup_map hids
  unfold posIn rank
  rw [List.map_map]
  have hfe : (fun x : ℕ × String × ℚ => x.2.1)
      (idxOf (p, sev) (active.filter (fun x => x.2 ≠ 0)),
        scoreOf baseline ga learned (p, sev)) = p := rfl
  rw [← hfe]
  exact idxOf_map_of_inj _ _ _ hmem (fun y hy hfy => hinj hy hmem hfy)

lemma rankKey_mk_iff (i j : ℕ) (a b : String × ℚ) :
    rankKey (i, a) (j, b) ↔ b.2 < a.2 ∨ (a.2 = b.2 ∧ i ≤ j) :=
  Iff.rfl

/-- C6: the output of rank is sorted descending by score; ties between
equal scores keep catalog order (stable sort); and every output entry
stems from a protocol of activeProtocols with nonzero severity (severity-0
and absent protocols are excluded). -/
theorem rank_sorted_stable_exclusive (baseline ga : String → ℚ)
    (learned active : List (String × ℚ)) :
    ((rank baseline ga learned active).Pairwise (fun a b => b.2 ≤ a.2)) ∧
    (∀ (p q : String) (sevp sevq : ℚ), (active.map Prod.fst).Nodup →
      (p, sevp) ∈ active → sevp ≠ 0 → (q, sevq) ∈ active → sevq ≠ 0 →
      (scoreOf baseline ga learned (p, sevp)).2
        = (scoreOf baseline ga learned (q, sevq)).2 →
      posIn active p < posIn active q →
      posIn (rank baseline ga learned active) p
        < posIn (rank baseline ga learned active) q) ∧
    (∀ e ∈ rank baseline ga learned active,
      ∃ sev, (e.1, sev) ∈ active ∧ sev ≠ 0) := by
  refine ⟨?_, ?_, ?_⟩
  · unfold rank rankAnnot
    refine List.Pairwise.map Prod.snd (fun a b hab => ?_)
      (List.sorted_insertionSort rankKey _)
    rcases hab with h | ⟨h, _⟩
    · exact le_of_lt h
    · exact le_of_eq h.symm
  · intro p q sevp sevq hnodup hpmem hsp hqmem hsq hscore hcat
    have hpF : (p, sevp) ∈ active.filter (fun x => x.2 ≠ 0) :=
      List.mem_filter.2 ⟨hpmem, by simpa using hsp⟩
    have hqF : (q, sevq) ∈ active.filter (fun x => x.2 ≠ 0) :=
      List.mem_filter.2 ⟨hqmem, by simpa using hsq⟩
    have hinjA := List.inj_on_of_nodup_map hnodup
    have hpA : idxOf p (active.map Prod.fst) = idxOf (p, sevp) active :=
      idxOf_map_of_inj Prod.fst active (p, sevp) hpmem
        (fun y hy hfy => hinjA hy hpmem hfy)
    have hqA : idxOf q (active.map Prod.fst) = idxOf (q, sevq) active :=
      idxOf_map_of_inj Prod.fst active (q, sevq) hqmem
        (fun y hy hfy => hinjA hy hqmem hfy)
    have hcat2 : idxOf (p, sevp) active < idxOf (q, sevq) active := by
      have hcat3 : idxOf p (active.map Prod.fst)
          < idxOf q (active.map Prod.fst) := hcat
      rwa [hpA, hqA] at hcat3
    have hFlt : idxOf (p, sevp) (active.filter (fun x => x.2 ≠ 0))
        < idxOf (q, sevq) (active.filter (fun x => x.2 ≠ 0)) :=
      idxOf_filter_lt _ active _ _ hpF hqF hcat2
    have hepR := mem_rankAnnot_of_mem_filter baseline ga learned active hpF
    have heqR := mem_rankAnnot_of_mem_filter baseline ga learned active hqF
    have hsorted : (rankAnnot baseline ga learned active).Pairwise rankKey :=
      List.sorted_insertionSort rankKey _
    rw [posIn_rank_eq baseline ga learned active hnodup hpF,
      posIn_rank_eq baseline ga learned active hnodup hqF]
    refine sorted_idxOf_lt hsorted hepR heqR ?_ ?_
    · intro h
      have h1 := congrArg Prod.fst h
      exact absurd h1 (Nat.ne_of_lt hFlt)
    · intro hk
      rcases (rankKey_mk_iff _ _ _ _).1 hk with hka | ⟨_, hkb⟩
      · rw [hscore] at hka
        exact lt_irrefl _ hka
      · exact absurd hkb (not_le.2 hFlt)
  · intro e he
    have h2 := (rank_perm_scored baseline ga learned active).mem_iff.1 he
    rcases List.mem_map.1 h2 with ⟨f, hf, rfl⟩
    rcases List.mem_filter.1 hf with ⟨hfa, hfs⟩
    exact ⟨f.2, hfa, of_decide_eq_true hfs⟩

/-- Witness for C6 on a concrete three-protocol input with a score tie and
a severity-0 protocol. -/
theorem rank_sorted_stable_exclusive_witness :
    ((rank (fun _ => 1/2) (fun _ => 1) []
        [("a", 2), ("b", 2), ("c", 0)]).Pairwise (fun x y => y.2 ≤ x.2)) ∧
    posIn (rank (fun _ => 1/2) (fun _ => 1) []
        [("a", 2), ("b", 2), ("c", 0)]) "a"
      < posIn (rank (fun _ => 1/2) (fun _ => 1) []
        [("a", 2), ("b", 2), ("c", 0)]) "b" := by
  refine ⟨(rank_sorted_stable_exclusive _ _ _ _).1, ?_⟩
  refine (rank_sorted_stable_exclusive (fun _ => 1/2) (fun _ => 1) []
    [("a", 2), ("b", 2), ("c", 0)]).2.1 "a" "b" 2 2 (by decide)
    (List.mem_cons_self _ _) (by norm_num)
    (List.mem_cons_of_mem _ (List.mem_cons_self _ _)) (by norm_num)
    (by norm_num [scoreOf, blendedWeight]) (by decide)

/-- C7 (amended): with a nonnegative severity for the boosted protocol and
nonnegative goal alignment, raising the learned weight of a single
protocol while all other learned weights stay fixed never worsens its
rank position relative to any protocol whose weight is unchanged. -/
theorem rank_position_monotone (baseline ga : String → ℚ)
    (l₁ l₂ active : List (String × ℚ)) (p q : String) (sevp sevq : ℚ)
    (hnodup : (active.map Prod.fst).Nodup)
    (hpmem : (p, sevp) ∈ active) (hsp : sevp ≠ 0)
    (hqmem : (q, sevq) ∈ active) (hsq : sevq ≠ 0)
    (hga : 0 ≤ ga p) (hsev : 0 ≤ sevp)
    (hq : (l₂.lookup q).getD (baseline q) = (l₁.lookup q).getD (baseline q))
    (hp : (l₁.lookup p).getD (baseline p) ≤ (l₂.lookup p).getD (baseline p))
    (hlt : posIn (rank baseline ga l₁ active) p
      < posIn (rank baseline ga l₁ active) q) :
    posIn (rank baseline ga l₂ active) p
      < posIn (rank baseline ga l₂ active) q := by
  have hpq : p ≠ q := by
    intro h
    rw [h] at hlt
    exact lt_irrefl _ hlt
  have hpF : (p, sevp) ∈ active.filter (fun x => x.2 ≠ 0) :=
    List.mem_filter.2 ⟨hpmem, by simpa using hsp⟩
  have hqF : (q, sevq) ∈ active.filter (fun x => x.2 ≠ 0) :=
    List.mem_filter.2 ⟨hqmem, by simpa using hsq⟩
  have hne_idx : idxOf (p, sevp) (active.filter (fun x => x.2 ≠ 0))
      ≠ idxOf (q, sevq) (active.filter (fun x => x.2 ≠ 0)) := by
    intro h
    have h1 := get_idxOf hpF (idxOf_lt_length hpF)
    have h2 := get_idxOf hqF (idxOf_lt_length hqF)
    simp only [h] at h1
    exact hpq (congrArg Prod.fst (h1.symm.trans h2))
  have hbw : blendedWeight baseline l₁ p ≤ blendedWeight baseline l₂ p := by
    unfold blendedWeight
    linarith [hp]
  have hbwq : blendedWeight baseline l₂ q = blendedWeight baseline l₁ q := by
    unfold blendedWeight
    rw [hq]
  have hs1 : (scoreOf baseline ga l₁ (p, sevp)).2
      ≤ (scoreOf baseline ga l₂ (p, sevp)).2 := by
    show sevp * blendedWeight baseline l₁ p * ga p
      ≤ sevp * blendedWeight baseline l₂ p * ga p
    have h0 : 0 ≤ sevp * ga p := mul_nonneg hsev hga
    calc sevp * blendedWeight baseline l₁ p * ga p
        = (sevp * ga p) * blendedWeight baseline l₁ p := by ring
      _ ≤ (sevp * ga p) * blendedWeight baseline l₂ p :=
          mul_le_mul_of_nonneg_left hbw h0
      _ = sevp * blendedWeight baseline l₂ p * ga p := by ring
  have hs2 : (scoreOf baseline ga l₂ (q, sevq)).2
      = (scoreOf baseline ga l₁ (q, sevq)).2 := by
    show sevq * blendedWeight baseline l₂ q * ga q
      = sevq * blendedWeight baseline l₁ q * ga q
    rw [hbwq]
  have hsorted1 : (rankAnnot baseline ga l₁ active).Pairwise rankKey :=
    List.sorted_insertionSort rankKey _
  have hsorted2 : (rankAnnot baseline ga l₂ active).Pairwise rankKey :=
    List.sorted_insertionSort rankKey _
  have hep1 := mem_rankAnnot_of_mem_filter baseline ga l₁ active hpF
  have heq1 := mem_rankAnnot_of_mem_filter baseline ga l₁ active hqF
  have hep2 := mem_rankAnnot_of_mem_filter baseline ga l₂ active hpF
  have heq2 := mem_rankAnnot_of_mem_filter baseline ga l₂ active hqF
  rw [posIn_rank_eq baseline ga l₁ active hnodup hpF,
    posIn_rank_eq baseline ga l₁ active hnodup hqF] at hlt
  have hk1 := sorted_rel_of_idxOf_lt hsorted1 hep1 heq1 hlt
  rw [posIn_rank_eq baseline ga l₂ active hnodup hpF,
    posIn_rank_eq baseline ga l₂ active hnodup hqF]
  refine sorted_idxOf_lt hsorted2 hep2 heq2 ?_ ?_
  · intro h
    exact hne_idx (congrArg Prod.fst h)
  · intro hk2
    rcases (rankKey_mk_iff _ _ _ _).1 hk1 with hka | ⟨hka, hkb⟩ <;>
      rcases (rankKey_mk_iff _ _ _ _).1 hk2 with hkc | ⟨hkc, hkd⟩
    · linarith
    · linarith
    · linarith
    · exact hne_idx (Nat.le_antisymm hkb hkd)

/-- Witness for C7 at a concrete nonnegative-severity input where the
boosted protocol keeps its leading position. -/
theorem rank_position_monotone_witness :
    posIn (rank (fun _ => 1/2) (fun _ => 1) [("a", 1)]
        [("a", 1), ("b", 1)]) "a"
      < posIn (rank (fun _ => 1/2) (fun _ => 1) [("a", 1)]
        [("a", 1), ("b", 1)]) "b" := by
  have h1 : rank (fun _ => 1/2) (fun _ => 1) [] [("a", 1), ("b", 1)]
      = [("a", 1/2), ("b", 1/2)] := by
    norm_num [rank, rankAnnot, scoredAnnot, scoreOf, blendedWeight,
      List.insertionSort, List.orderedInsert, rankKey, List.enum,
      List.enumFrom, List.lookup, List.filter]
  refine rank_position_monotone (fun _ => 1/2) (fun _ => 1) []
    [("a", 1)] [("a", 1), ("b", 1)] "a" "b" 1 1 (by decide)
    (List.mem_cons_self _ _) (by norm_num)
    (List.mem_cons_of_mem _ (List.mem_cons_self _ _)) (by norm_num)
    (by norm_num) (by norm_num) rfl
    (by show (1:ℚ)/2 ≤ (1:ℚ); norm_num) ?_
  rw [h1]
  decide

/-- Counterexample to C7 as stated: with a negative severity for the
boosted protocol, raising its learned weight lowers its score, and its
position worsens relative to an unchanged protocol. -/
theorem rank_position_monotone_counterexample :
    ((List.lookup "b" [("a", (1:ℚ))]).getD ((1:ℚ)/2)
        = (List.lookup "b" ([] : List (String × ℚ))).getD ((1:ℚ)/2)) ∧
    ((List.lookup "a" ([] : List (String × ℚ))).getD ((1:ℚ)/2)
        ≤ (List.lookup "a" [("a", (1:ℚ))]).getD ((1:ℚ)/2)) ∧
    posIn (rank (fun _ => 1/2) (fun _ => 1) []
        [("a", -1), ("b", -6/5)]) "a"
      < posIn (rank (fun _ => 1/2) (fun _ => 1) []
        [("a", -1), ("b", -6/5)]) "b" ∧
    ¬ (posIn (rank (fun _ => 1/2) (fun _ => 1) [("a", 1)]
        [("a", -1), ("b", -6/5)]) "a"
      < posIn (rank (fun _ => 1/2) (fun _ => 1) [("a", 1)]
        [("a", -1), ("b", -6/5)]) "b") := by
  have h1 : rank (fun _ => 1/2) (fun _ => 1) [] [("a", -1), ("b", -6/5)]
      = [("a", -1/2), ("b", -3/5)] := by
    norm_num [rank, rankAnnot, scoredAnnot, scoreOf, blendedWeight,
      List.insertionSort, List.orderedInsert, rankKey, List.enum,
      List.enumFrom, List.lookup, List.filter]
  have hlkb : List.lookup "b" [("a", (1:ℚ))] = none := rfl
  have hlka : List.lookup "a" [("a", (1:ℚ))] = some 1 := rfl
  have h2 : rank (fun _ => 1/2) (fun _ => 1) [("a", 1)]
      [("a", -1), ("b", -6/5)] = [("b", -3/5), ("a", -13/20)] := by
    norm_num [rank, rankAnnot, scoredAnnot, scoreOf, blendedWeight,
      List.insertionSort, List.orderedInsert, rankKey, List.enum,
      List.enumFrom, hlkb, hlka, List.filter]
  refine ⟨rfl, by show (1:ℚ)/2 ≤ (1:ℚ); norm_num, ?_, ?_⟩
  · rw [h1]
    decide
  · rw [h2]
    decide

end CampusFuel
